import Mathlib

/-!
# Verification of the `ini-rs` INI reader/writer

Shallow embedding of `src/lib.rs` (crate `ini-rs`). Strings are modelled as
`List Char`; Rust's `BTreeMap` is modelled as an association list kept sorted
by the same order Rust uses on `String` (lexicographic on code points, which
for UTF-8 byte comparison coincides with comparison of `Char.toNat`).
Fallible Rust code (`Result<_, io::Error>`) is modelled with `Except`;
the distinct `io::Error` values constructed in the source are modelled by the
enumeration `IniError`, and the `.unwrap()` in `build_struct` is modelled by
the dedicated `IniError.panicUnwrap` value.
-/

namespace IniRs

/-- Strings as lists of characters (Rust `String` / `&str`). -/
abbrev Str := List Char

instance {ε α : Type} [DecidableEq ε] [DecidableEq α] : DecidableEq (Except ε α) :=
  fun a b =>
    match a, b with
    | .ok x, .ok y =>
      if h : x = y then .isTrue (by rw [h]) else .isFalse (by simp [h])
    | .error x, .error y =>
      if h : x = y then .isTrue (by rw [h]) else .isFalse (by simp [h])
    | .ok _, .error _ => .isFalse (by simp)
    | .error _, .ok _ => .isFalse (by simp)

/-- Rust `char::is_whitespace`: the Unicode `White_Space` property. -/
def isRustWhitespace (c : Char) : Bool :=
  c = ' ' || c = '\t' || c = '\n' || c = '\x0b' || c = '\x0c' || c = '\r' ||
  c.toNat = 0x85 || c.toNat = 0xa0 || c.toNat = 0x1680 ||
  (0x2000 ≤ c.toNat && c.toNat ≤ 0x200a) ||
  c.toNat = 0x2028 || c.toNat = 0x2029 || c.toNat = 0x202f ||
  c.toNat = 0x205f || c.toNat = 0x3000

/-- Rust `str::trim_start`. -/
def rustTrimStart (s : Str) : Str := s.dropWhile isRustWhitespace

/-- Rust `str::trim_end`. -/
def rustTrimEnd (s : Str) : Str := (s.reverse.dropWhile isRustWhitespace).reverse

/-- Rust `str::trim`. -/
def rustTrim (s : Str) : Str := rustTrimEnd (rustTrimStart s)

/-- Rust `String` ordering (`Ord` on `String` compares UTF-8 bytes, which is
the lexicographic order on code points). -/
def strLt : Str → Str → Bool
  | _, [] => false
  | [], _ :: _ => true
  | a :: as, b :: bs =>
    if a.toNat < b.toNat then true
    else if b.toNat < a.toNat then false
    else strLt as bs

/-- `BTreeMap` lookup (`get`): find the value bound to key `k`. -/
def lookupA {α : Type} (k : Str) : List (Str × α) → Option α
  | [] => none
  | p :: rest => if p.1 = k then some p.2 else lookupA k rest

/-- `BTreeMap::insert`: insert into a sorted association list, replacing the
value if the key is already present. -/
def insertSorted {α : Type} (k : Str) (v : α) : List (Str × α) → List (Str × α)
  | [] => [(k, v)]
  | p :: rest =>
    if strLt k p.1 then (k, v) :: p :: rest
    else if strLt p.1 k then p :: insertSorted k v rest
    else (k, v) :: rest

/-- Rust `str::split_once`: split at the first occurrence of `sep`. -/
def splitOnce (sep : Char) : Str → Option (Str × Str)
  | [] => none
  | c :: rest =>
    if c = sep then some ([], rest)
    else match splitOnce sep rest with
      | some (a, b) => some (c :: a, b)
      | none => none

/-- A section of the INI file: keys mapped to values
(`BTreeMap<String, String>`). -/
abbrev Sect := List (Str × Str)

/-- The whole configuration map
(`BTreeMap<String, BTreeMap<String, String>>`). -/
abbrev ConfigMap := List (Str × Sect)

/-- The `Ini` struct of `src/lib.rs`. -/
structure Ini where
  config_map : ConfigMap
  config_file : Str
  deriving DecidableEq

/-- The distinct error values the crate constructs (`io::Error::new` calls),
plus `panicUnwrap` modelling the `.unwrap()` in `build_struct`. -/
inductive IniError where
  | ioReadFailed
  | kvpBeforeSection
  | unsplittableKvp
  | unrecognizedLine
  | unsupportedOS
  | noBoundPath
  | panicUnwrap
  deriving DecidableEq

/-- The operating system, as reported by `std::env::consts::OS`. -/
inductive OS where
  | linux
  | windows
  | other
  deriving DecidableEq

/-- The per-platform line terminator chosen by `to_string`
(`NEW_LINE_LINUX` / `NEW_LINE_WINDOWS`), or `none` on an unsupported OS. -/
def newLineFor : OS → Option Str
  | .linux => some ['\n']
  | .windows => some ['\r', '\n']
  | .other => none

/-- `line.starts_with(p)` for the single-character patterns used in the
source (`"["`, `"#"`, `";"`). -/
def startsWithChar (c : Char) : Str → Bool
  | [] => false
  | d :: _ => d = c

/-- `line.contains(p)` for the single-character patterns used in the source
(`"]"`, `"="`): does the character occur in the line? -/
def containsChar (c : Char) (l : Str) : Bool := l.any (fun d => d = c)

/-- The loop state of `Ini::build_struct`: the `in_section` flag, the
current section name `cur_sec`, and the map built so far. -/
structure BuildState where
  in_section : Bool
  cur_sec : Str
  map : ConfigMap
  deriving DecidableEq

/-- The section name computed by `build_struct` for a section-header line:
`line.replace("[", "").replace("]", "").trim()`. -/
def sectionNameOf (line : Str) : Str :=
  rustTrim ((line.filter (fun c => !(c = '['))).filter (fun c => !(c = ']')))

/-- One iteration of the `for line in lines` loop of `Ini::build_struct`. -/
def buildLine (st : BuildState) (line : Str) : Except IniError BuildState :=
  if startsWithChar '#' line || startsWithChar ';' line then .ok st
  else if line.length = 0 then .ok st
  else if startsWithChar '[' line && containsChar ']' line then
    let cs := sectionNameOf line
    .ok ⟨true, cs, insertSorted cs [] st.map⟩
  else if containsChar '=' line then
    if !st.in_section then .error .kvpBeforeSection
    else match splitOnce '=' line with
      | none => .error .unsplittableKvp
      | some kvp =>
        match lookupA st.cur_sec st.map with
        | none => .error .panicUnwrap
        | some sm =>
          .ok ⟨st.in_section, st.cur_sec,
            insertSorted st.cur_sec (insertSorted kvp.1 kvp.2 sm) st.map⟩
  else .error .unrecognizedLine

/-- The `for` loop of `Ini::build_struct` over all lines. -/
def buildLoop (st : BuildState) : List Str → Except IniError BuildState
  | [] => .ok st
  | l :: ls =>
    match buildLine st l with
    | .ok st1 => buildLoop st1 ls
    | .error e => .error e

/-- `Ini::build_struct`. -/
def build_struct (lines : List Str) : Except IniError Ini :=
  match buildLoop ⟨false, [], []⟩ lines with
  | .ok st => .ok ⟨st.map, []⟩
  | .error e => .error e

/-- Modelled from the spec: the external line-splitting primitive
(`read_lines_with_blank_from_str` from the `read_lines_with_blank` crate,
whose source is not part of this repository). Per the spec it splits an
in-memory string into an ordered sequence of lines, preserving blank lines
as empty-string entries; we model it as splitting at each `'\n'`. -/
def splitLines : Str → List Str
  | [] => [[]]
  | c :: rest =>
    if c = '\n' then [] :: splitLines rest
    else match splitLines rest with
      | l :: ls => (c :: l) :: ls
      | [] => [[c]]

/-- `Ini::from_string`. -/
def from_string (s : Str) : Except IniError Ini :=
  build_struct (splitLines s)

/-- What the filesystem reports for a path in `Ini::new`: the path does not
exist, the read fails, or the read returns the file's lines (the external
`read_lines_with_blank` primitive). -/
inductive ReadResult where
  | notExists
  | readError
  | content (lines : List Str)

/-- `Ini::new`, with the filesystem passed explicitly. -/
def new (fs : Str → ReadResult) (location : Str) : Except IniError Ini :=
  match fs location with
  | .notExists => .ok ⟨[], location⟩
  | .readError => .error .ioReadFailed
  | .content lines =>
    match build_struct lines with
    | .ok ini => .ok ⟨ini.config_map, location⟩
    | .error e => .error e

/-- Rendering of one key-value pair by `Ini::to_string`
(`k`, `=`, `v`, newline). -/
def renderKvp (nl : Str) (kv : Str × Str) : Str :=
  kv.1 ++ '=' :: (kv.2 ++ nl)

/-- Rendering of one section by `Ini::to_string`
(`[`, name, `]`, newline, then each pair). -/
def renderSec (nl : Str) (s : Str × Sect) : Str :=
  '[' :: (s.1 ++ ']' :: nl) ++ (s.2.map (renderKvp nl)).flatten

/-- `Ini::to_string`. -/
def to_string (os : OS) (ini : Ini) : Except IniError Str :=
  match newLineFor os with
  | none => .error .unsupportedOS
  | some nl =>
    if ini.config_map = [] then .ok []
    else .ok ((ini.config_map.map (renderSec nl)).flatten)

/-- `Ini::get`. -/
def get (ini : Ini) (sec key : Str) : Option Str :=
  match lookupA sec ini.config_map with
  | some section_map =>
    match lookupA key section_map with
    | some value => some (rustTrimStart value)
    | none => none
  | none => none

/-- `Ini::set`. -/
def set (ini : Ini) (sec key value : Str) : Ini :=
  { ini with
    config_map :=
      insertSorted sec
        (insertSorted key value ((lookupA sec ini.config_map).getD []))
        ini.config_map }

/-- The in-memory model of the filesystem used by `save`: each path is
either absent or holds a string of content. -/
abbrev FS := Str → Option Str

/-- UTF-8 byte length of a string (the file size `save` reports). -/
def utf8Len (s : Str) : Nat := (s.map Char.utf8Size).sum

/-- `Ini::save`, with the filesystem passed and returned explicitly.
The open with `create(true).write(true).truncate(true)` happens before
`to_string` is called, so the bound path is truncated even when
`to_string` later fails; the pair returned carries the filesystem as it is
left on every exit path. -/
def save (os : OS) (fs : FS) (ini : Ini) : Except IniError Nat × FS :=
  if ini.config_file = [] then (.error .noBoundPath, fs)
  else
    let fs1 : FS := fun p => if p = ini.config_file then some [] else fs p
    match to_string os ini with
    | .error e => (.error e, fs1)
    | .ok s =>
      let fs2 : FS := fun p => if p = ini.config_file then some s else fs1 p
      (.ok (utf8Len s), fs2)

/-! ## Derived predicates used in the statements -/

/-- The sortedness invariant Rust's `BTreeMap` iteration order provides:
keys strictly ascending in the string order. -/
def KeySorted {α : Type} (m : List (Str × α)) : Prop :=
  m.Pairwise (fun p q => strLt p.1 q.1 = true)

/-- The string has no leading whitespace character. -/
def noLeadWs (s : Str) : Prop :=
  ∀ c, s.head? = some c → isRustWhitespace c = false

/-- The string has no trailing whitespace character. -/
def noTrailWs (s : Str) : Prop :=
  ∀ c, s.getLast? = some c → isRustWhitespace c = false

/-- A line `build_struct` skips: a comment (`#` or `;` first) or a blank. -/
def skippable (l : Str) : Bool :=
  startsWithChar '#' l || startsWithChar ';' l || decide (l.length = 0)

/-- A line `build_struct` treats as a section header. -/
def isSectionLine (l : Str) : Bool :=
  startsWithChar '[' l && containsChar ']' l

/-- A line `build_struct` treats as a key-value pair: not skippable, not a
section header, and containing `=`. -/
def isKvpLine (l : Str) : Bool :=
  !skippable l && !isSectionLine l && containsChar '=' l

/-- Shape of every section name `build_struct` records: free of brackets and
newlines, with no surrounding whitespace (it went through `trim`). -/
def goodSecName (S : Str) : Prop :=
  '[' ∉ S ∧ ']' ∉ S ∧ '\n' ∉ S ∧ noLeadWs S ∧ noTrailWs S

/-- Shape of every key-value pair `build_struct` records: the key holds no
`=` (it is the text before the first `=`), neither side holds a newline, the
key does not start with a comment marker (such a line would have been
skipped), and if the key starts with `[` then no `]` occurs in the line
(such a line would have been a section header). -/
def goodPair (k v : Str) : Prop :=
  '=' ∉ k ∧ '\n' ∉ k ∧ '\n' ∉ v ∧
  (∀ c, k.head? = some c → c ≠ '#' ∧ c ≠ ';') ∧
  (k.head? = some '[' → ']' ∉ k ∧ ']' ∉ v)

/-- Well-formed section: keys sorted and every pair well shaped. -/
def goodSect (s : Sect) : Prop :=
  KeySorted s ∧ ∀ p ∈ s, goodPair p.1 p.2

/-- Well-formed configuration map: section names sorted, and every entry
well shaped. -/
def WFmap (m : ConfigMap) : Prop :=
  KeySorted m ∧ ∀ p ∈ m, goodSecName p.1 ∧ goodSect p.2



/-- The line `build_struct` would have produced for a stored key-value
pair, and which `to_string` prints for it (without the newline). -/
def kvpLine (p : Str × Str) : Str := p.1 ++ '=' :: p.2

/-- The lines `to_string` prints for one section (without the newlines). -/
def secLines (s : Str × Sect) : List Str :=
  ('[' :: (s.1 ++ [']'])) :: s.2.map kvpLine

/-- All lines `to_string` prints for a configuration map. -/
def renderedLines (m : ConfigMap) : List Str :=
  (m.map secLines).flatten

/-! ## Basic facts about the string order -/

theorem char_toNat_inj {a b : Char} (h : a.toNat = b.toNat) : a = b :=
  Char.eq_of_val_eq (UInt32.ext h)

theorem strLt_cons (a b : Char) (as bs : Str) :
    strLt (a :: as) (b :: bs) = true ↔
      a.toNat < b.toNat ∨ (a.toNat = b.toNat ∧ strLt as bs = true) := by
  simp only [strLt]
  by_cases h1 : a.toNat < b.toNat
  · simp [h1]
  · by_cases h2 : b.toNat < a.toNat
    · simp [h1, h2]
      omega
    · have he : a.toNat = b.toNat := by omega
      rw [if_neg h1, if_neg h2]
      constructor
      · intro h
        exact Or.inr ⟨he, h⟩
      · rintro (h | ⟨-, h⟩)
        · exact absurd h h1
        · exact h

theorem strLt_irrefl (a : Str) : strLt a a = false := by
  induction a with
  | nil => rfl
  | cons c cs ih =>
    rw [Bool.eq_false_iff]
    intro h
    rcases (strLt_cons c c cs cs).mp h with h' | ⟨-, h'⟩
    · omega
    · rw [ih] at h'
      exact Bool.noConfusion h'

theorem strLt_trans : ∀ {a b c : Str},
    strLt a b = true → strLt b c = true → strLt a c = true
  | _, _, [], _, h2 => by simp [strLt] at h2
  | [], _ :: _, _ :: _, _, _ => by simp [strLt]
  | [], [], _ :: _, h1, _ => by simp [strLt] at h1
  | _ :: _, [], _, h1, _ => by simp [strLt] at h1
  | a :: as, b :: bs, c :: cs, h1, h2 => by
    rcases (strLt_cons a b as bs).mp h1 with hab | ⟨hab, h1r⟩ <;>
      rcases (strLt_cons b c bs cs).mp h2 with hbc | ⟨hbc, h2r⟩
    · exact (strLt_cons a c as cs).mpr (Or.inl (by omega))
    · exact (strLt_cons a c as cs).mpr (Or.inl (by omega))
    · exact (strLt_cons a c as cs).mpr (Or.inl (by omega))
    · exact (strLt_cons a c as cs).mpr (Or.inr ⟨by omega, strLt_trans h1r h2r⟩)

theorem strLt_asymm {a b : Str} (h : strLt a b = true) : strLt b a = false := by
  cases h2 : strLt b a with
  | false => rfl
  | true =>
    have h3 := strLt_trans h h2
    rw [strLt_irrefl] at h3
    exact Bool.noConfusion h3

theorem eq_of_not_strLt : ∀ {a b : Str},
    strLt a b = false → strLt b a = false → a = b
  | [], [], _, _ => rfl
  | [], _ :: _, h1, _ => by simp [strLt] at h1
  | _ :: _, [], _, h2 => by simp [strLt] at h2
  | a :: as, b :: bs, h1, h2 => by
    rw [Bool.eq_false_iff] at h1 h2
    have hab : ¬ a.toNat < b.toNat := fun h =>
      h1 ((strLt_cons a b as bs).mpr (Or.inl h))
    have hba : ¬ b.toNat < a.toNat := fun h =>
      h2 ((strLt_cons b a bs as).mpr (Or.inl h))
    have hr1 : strLt as bs = false := by
      rw [Bool.eq_false_iff]
      intro h
      exact h1 ((strLt_cons a b as bs).mpr (Or.inr ⟨by omega, h⟩))
    have hr2 : strLt bs as = false := by
      rw [Bool.eq_false_iff]
      intro h
      exact h2 ((strLt_cons b a bs as).mpr (Or.inr ⟨by omega, h⟩))
    have hc : a = b := char_toNat_inj (by omega)
    rw [hc, eq_of_not_strLt hr1 hr2]

theorem strLt_ne {a b : Str} (h : strLt a b = true) : a ≠ b := by
  intro hab
  rw [hab, strLt_irrefl] at h
  exact Bool.noConfusion h

/-! ## Lookup and insertion in sorted association lists -/


theorem lookupA_insertSorted_self {α : Type} (k : Str) (v : α) :
    ∀ m : List (Str × α), lookupA k (insertSorted k v m) = some v := by
  intro m
  induction m with
  | nil => simp [insertSorted, lookupA]
  | cons p rest ih =>
    by_cases h1 : strLt k p.1 = true
    · simp [insertSorted, h1, lookupA]
    · by_cases h2 : strLt p.1 k = true
      · have hne : p.1 ≠ k := fun hh => strLt_ne h2 hh
        simp [insertSorted, h1, h2, lookupA, hne, ih]
      · simp [insertSorted, h1, h2, lookupA]

theorem lookupA_insertSorted_ne {α : Type} (k k2 : Str) (v : α) (hne : k2 ≠ k) :
    ∀ m : List (Str × α), lookupA k2 (insertSorted k v m) = lookupA k2 m := by
  have hne2 : ¬ (k = k2) := fun h => hne h.symm
  intro m
  induction m with
  | nil => simp [insertSorted, lookupA, hne2]
  | cons p rest ih =>
    by_cases h1 : strLt k p.1 = true
    · simp [insertSorted, h1, lookupA, hne2]
    · by_cases h2 : strLt p.1 k = true
      · simp [insertSorted, h1, h2, lookupA, ih]
      · have hk : k = p.1 := eq_of_not_strLt (by simpa using h1) (by simpa using h2)
        have hne3 : ¬ (p.1 = k2) := by rw [← hk]; exact hne2
        simp [insertSorted, h1, h2, lookupA, hne2, hne3]

theorem lookupA_mem {α : Type} {k : Str} {v : α} :
    ∀ {m : List (Str × α)}, lookupA k m = some v → (k, v) ∈ m := by
  intro m
  induction m with
  | nil => intro h; simp [lookupA] at h
  | cons p rest ih =>
    intro h
    obtain ⟨p1, p2⟩ := p
    by_cases hp : p1 = k
    · simp only [lookupA, hp, if_pos] at h
      rw [Option.some_inj] at h
      rw [← hp, ← h]
      exact List.mem_cons_self _ _
    · simp only [lookupA, hp, if_neg, if_false] at h
      exact List.mem_cons_of_mem _ (ih h)

theorem mem_insertSorted {α : Type} {k : Str} {v : α} {q : Str × α} :
    ∀ {m : List (Str × α)}, q ∈ insertSorted k v m → q = (k, v) ∨ q ∈ m := by
  intro m
  induction m with
  | nil => simp [insertSorted]
  | cons p rest ih =>
    intro hq
    by_cases h1 : strLt k p.1 = true
    · simp only [insertSorted] at hq
      rw [if_pos h1] at hq
      exact List.mem_cons.mp hq
    · by_cases h2 : strLt p.1 k = true
      · simp only [insertSorted] at hq
        rw [if_neg h1, if_pos h2] at hq
        rcases List.mem_cons.mp hq with h | h
        · exact Or.inr (List.mem_cons.mpr (Or.inl h))
        · rcases ih h with h3 | h3
          · exact Or.inl h3
          · exact Or.inr (List.mem_cons_of_mem _ h3)
      · simp only [insertSorted] at hq
        rw [if_neg h1, if_neg h2] at hq
        rcases List.mem_cons.mp hq with h | h
        · exact Or.inl h
        · exact Or.inr (List.mem_cons_of_mem _ h)

theorem keySorted_insertSorted {α : Type} (k : Str) (v : α) :
    ∀ {m : List (Str × α)}, KeySorted m → KeySorted (insertSorted k v m) := by
  intro m
  induction m with
  | nil =>
    intro _
    exact List.pairwise_singleton _ _
  | cons p rest ih =>
    intro hs
    rw [KeySorted, List.pairwise_cons] at hs
    obtain ⟨hp, hrest⟩ := hs
    by_cases h1 : strLt k p.1 = true
    · simp only [insertSorted]
      rw [if_pos h1]
      rw [KeySorted, List.pairwise_cons]
      refine ⟨?_, ?_⟩
      · intro q hq
        rcases List.mem_cons.mp hq with h | h
        · rw [h]; exact h1
        · exact strLt_trans h1 (hp q h)
      · rw [List.pairwise_cons]
        exact ⟨hp, hrest⟩
    · by_cases h2 : strLt p.1 k = true
      · simp only [insertSorted]
        rw [if_neg h1, if_pos h2]
        rw [KeySorted, List.pairwise_cons]
        refine ⟨?_, ih hrest⟩
        intro q hq
        rcases mem_insertSorted hq with h | h
        · rw [h]; exact h2
        · exact hp q h
      · have hk : k = p.1 :=
          eq_of_not_strLt (by simpa using h1) (by simpa using h2)
        simp only [insertSorted]
        rw [if_neg h1, if_neg h2]
        rw [KeySorted, List.pairwise_cons]
        refine ⟨?_, hrest⟩
        intro q hq
        rw [hk]
        exact hp q hq

theorem insertSorted_append_last {α : Type} (k : Str) (v : α) :
    ∀ {m : List (Str × α)}, (∀ p ∈ m, strLt p.1 k = true) →
      insertSorted k v m = m ++ [(k, v)] := by
  intro m
  induction m with
  | nil => intro _; rfl
  | cons p rest ih =>
    intro hall
    have hp : strLt p.1 k = true := hall p (List.mem_cons_self _ _)
    have h1 : ¬ strLt k p.1 = true := by
      rw [strLt_asymm hp]
      exact Bool.noConfusion
    simp only [insertSorted]
    rw [if_neg h1, if_pos hp, ih (fun q hq => hall q (List.mem_cons_of_mem _ hq))]
    rfl

theorem insertSorted_replace_last {α : Type} (k : Str) (t t2 : α) :
    ∀ {m : List (Str × α)}, (∀ p ∈ m, strLt p.1 k = true) →
      insertSorted k t2 (m ++ [(k, t)]) = m ++ [(k, t2)] := by
  intro m
  induction m with
  | nil =>
    intro _
    simp only [List.nil_append, insertSorted]
    rw [if_neg (by rw [strLt_irrefl]; exact Bool.noConfusion),
      if_neg (by rw [strLt_irrefl]; exact Bool.noConfusion)]
  | cons p rest ih =>
    intro hall
    have hp : strLt p.1 k = true := hall p (List.mem_cons_self _ _)
    have h1 : ¬ strLt k p.1 = true := by
      rw [strLt_asymm hp]
      exact Bool.noConfusion
    simp only [List.cons_append, insertSorted, List.append_eq]
    rw [if_neg h1, if_pos hp, ih (fun q hq => hall q (List.mem_cons_of_mem _ hq))]

theorem lookupA_append_right {α : Type} (k : Str) (l : List (Str × α)) :
    ∀ {m : List (Str × α)}, (∀ p ∈ m, p.1 ≠ k) →
      lookupA k (m ++ l) = lookupA k l := by
  intro m
  induction m with
  | nil => intro _; rfl
  | cons p rest ih =>
    intro hall
    simp only [List.cons_append, lookupA, List.append_eq]
    rw [if_neg (hall p (List.mem_cons_self _ _)),
      ih (fun q hq => hall q (List.mem_cons_of_mem _ hq))]

theorem lookupA_single_self {α : Type} (k : Str) (v : α) :
    lookupA k [(k, v)] = some v := by
  simp [lookupA]

/-! ## Trimming -/


theorem head?_dropWhile (p : Char → Bool) :
    ∀ (s : Str) (c : Char), (s.dropWhile p).head? = some c → p c = false := by
  intro s
  induction s with
  | nil => intro c hc; simp [List.dropWhile] at hc
  | cons d ds ih =>
    intro c hc
    by_cases hd : p d = true
    · rw [List.dropWhile_cons_of_pos hd] at hc
      exact ih c hc
    · rw [List.dropWhile_cons_of_neg hd] at hc
      simp only [List.head?_cons, Option.some_inj] at hc
      rw [← hc]
      simpa using hd

theorem noLeadWs_rustTrimStart (s : Str) : noLeadWs (rustTrimStart s) :=
  fun c hc => head?_dropWhile isRustWhitespace s c hc

theorem rustTrimStart_eq_self {s : Str} (h : noLeadWs s) : rustTrimStart s = s := by
  cases s with
  | nil => rfl
  | cons c cs =>
    have hc : isRustWhitespace c = false := h c rfl
    simp only [rustTrimStart]
    rw [List.dropWhile_cons_of_neg (by simp [hc])]

theorem noTrailWs_rustTrimEnd (s : Str) : noTrailWs (rustTrimEnd s) := by
  intro c hc
  rw [rustTrimEnd, List.getLast?_reverse] at hc
  exact head?_dropWhile isRustWhitespace s.reverse c hc

theorem rustTrimEnd_eq_self {s : Str} (h : noTrailWs s) : rustTrimEnd s = s := by
  rw [rustTrimEnd]
  have hd : List.dropWhile isRustWhitespace s.reverse = s.reverse := by
    cases hr : s.reverse with
    | nil => rfl
    | cons c cs =>
      have hc : isRustWhitespace c = false := by
        apply h c
        rw [← List.head?_reverse, hr]
        rfl
      rw [List.dropWhile_cons_of_neg (by simp [hc])]
  rw [hd, List.reverse_reverse]

theorem rustTrimEnd_front (s : Str) : rustTrimEnd s <+: s := by
  obtain ⟨t, ht⟩ :=
    (List.dropWhile_suffix isRustWhitespace :
      List.dropWhile isRustWhitespace s.reverse <:+ s.reverse)
  refine ⟨t.reverse, ?_⟩
  rw [rustTrimEnd]
  have h2 := congrArg List.reverse ht
  rw [List.reverse_append, List.reverse_reverse] at h2
  exact h2

theorem noLeadWs_rustTrimEnd {s : Str} (h : noLeadWs s) : noLeadWs (rustTrimEnd s) := by
  obtain ⟨t, ht⟩ := rustTrimEnd_front s
  intro c hc
  apply h c
  rw [← ht]
  cases he : rustTrimEnd s with
  | nil => rw [he] at hc; exact Option.noConfusion hc
  | cons d ds =>
    rw [he] at hc
    simpa using hc

theorem noLeadWs_rustTrim (s : Str) : noLeadWs (rustTrim s) :=
  noLeadWs_rustTrimEnd (noLeadWs_rustTrimStart s)

theorem noTrailWs_rustTrim (s : Str) : noTrailWs (rustTrim s) :=
  noTrailWs_rustTrimEnd _

theorem rustTrim_eq_self {s : Str} (h1 : noLeadWs s) (h2 : noTrailWs s) :
    rustTrim s = s := by
  rw [rustTrim, rustTrimStart_eq_self h1, rustTrimEnd_eq_self h2]

theorem mem_of_mem_rustTrim {s : Str} {c : Char} (h : c ∈ rustTrim s) : c ∈ s := by
  obtain ⟨t, ht⟩ := rustTrimEnd_front (rustTrimStart s)
  have h2 : c ∈ rustTrimStart s := by
    rw [← ht]
    exact List.mem_append_left _ h
  rw [rustTrimStart] at h2
  exact (List.dropWhile_sublist _).mem h2

/-! ## Splitting -/

theorem containsChar_iff {c : Char} {l : Str} : containsChar c l = true ↔ c ∈ l := by
  rw [containsChar, List.any_eq_true]
  constructor
  · rintro ⟨d, hd, he⟩
    rw [← (by simpa using he : d = c)]
    exact hd
  · intro h
    exact ⟨c, h, by simp⟩

theorem containsChar_eq_false {c : Char} {l : Str} :
    containsChar c l = false ↔ c ∉ l := by
  rw [← Bool.not_eq_true, not_iff_not]
  exact containsChar_iff

theorem splitOnce_some {sep : Char} :
    ∀ {l a b : Str}, splitOnce sep l = some (a, b) → l = a ++ sep :: b ∧ sep ∉ a := by
  intro l
  induction l with
  | nil => intro a b h; exact Option.noConfusion h
  | cons c rest ih =>
    intro a b h
    by_cases hc : c = sep
    · rw [splitOnce, if_pos hc] at h
      obtain ⟨ha, hb⟩ := Prod.mk.injEq .. ▸ Option.some_inj.mp h
      rw [← ha, ← hb, hc]
      exact ⟨rfl, by simp⟩
    · rw [splitOnce, if_neg hc] at h
      cases hr : splitOnce sep rest with
      | none => rw [hr] at h; exact Option.noConfusion h
      | some p =>
        obtain ⟨a0, b0⟩ := p
        rw [hr] at h
        obtain ⟨ha, hb⟩ := Prod.mk.injEq .. ▸ Option.some_inj.mp h
        obtain ⟨he, hn⟩ := ih hr
        rw [← ha, ← hb]
        constructor
        · rw [List.cons_append, he]
        · intro hmem
          rcases List.mem_cons.mp hmem with h1 | h1
          · exact hc h1.symm
          · exact hn h1

theorem splitOnce_append (sep : Char) {a : Str} (b : Str) (h : sep ∉ a) :
    splitOnce sep (a ++ sep :: b) = some (a, b) := by
  induction a with
  | nil => simp [splitOnce]
  | cons c cs ih =>
    have hc : ¬ c = sep := fun hh => h (hh ▸ List.mem_cons_self _ _)
    rw [List.cons_append, splitOnce, if_neg hc,
      ih (fun hh => h (List.mem_cons_of_mem _ hh))]

theorem splitLines_ne_nil : ∀ s : Str, splitLines s ≠ [] := by
  intro s
  cases s with
  | nil => simp [splitLines]
  | cons c rest =>
    by_cases hc : c = '\n'
    · simp [splitLines, hc]
    · simp only [splitLines, if_neg hc]
      cases splitLines rest <;> simp

theorem splitLines_no_nl : ∀ (s : Str), ∀ l ∈ splitLines s, '\n' ∉ l := by
  intro s
  induction s with
  | nil =>
    intro l hl
    rw [splitLines] at hl
    rw [List.mem_singleton.mp hl]
    simp
  | cons c rest ih =>
    intro l hl
    by_cases hc : c = '\n'
    · rw [splitLines, if_pos hc] at hl
      rcases List.mem_cons.mp hl with h | h
      · rw [h]; simp
      · exact ih l h
    · rw [splitLines, if_neg hc] at hl
      cases hr : splitLines rest with
      | nil => exact absurd hr (splitLines_ne_nil rest)
      | cons l0 ls =>
        rw [hr] at hl
        rcases List.mem_cons.mp hl with h | h
        · rw [h]
          intro hmem
          rcases List.mem_cons.mp hmem with h1 | h1
          · exact hc h1.symm
          · exact ih l0 (hr ▸ List.mem_cons_self _ _) h1
        · exact ih l (hr ▸ List.mem_cons_of_mem _ h)

theorem splitLines_append {a : Str} (rest : Str) (h : '\n' ∉ a) :
    splitLines (a ++ '\n' :: rest) = a :: splitLines rest := by
  induction a with
  | nil =>
    rw [List.nil_append, splitLines, if_pos rfl]
  | cons c cs ih =>
    have hc : ¬ c = '\n' := fun hh => h (hh ▸ List.mem_cons_self _ _)
    rw [List.cons_append, splitLines, if_neg hc,
      ih (fun hh => h (List.mem_cons_of_mem _ hh))]

/-! ## Line classification -/


theorem buildLine_skip (st : BuildState) {l : Str} (h : skippable l = true) :
    buildLine st l = .ok st := by
  rw [skippable, Bool.or_eq_true, Bool.or_eq_true] at h
  rcases h with h | h
  · rw [buildLine, if_pos (by rw [Bool.or_eq_true]; exact h)]
  · rw [buildLine]
    by_cases hcm : (startsWithChar '#' l || startsWithChar ';' l) = true
    · rw [if_pos hcm]
    · rw [if_neg hcm, if_pos (by simpa using h)]

theorem buildLine_section (st : BuildState) {l : Str} (h : isSectionLine l = true) :
    buildLine st l =
      .ok ⟨true, sectionNameOf l, insertSorted (sectionNameOf l) [] st.map⟩ := by
  rw [isSectionLine, Bool.and_eq_true] at h
  obtain ⟨h1, h2⟩ := h
  cases l with
  | nil => exact absurd h1 (by simp [startsWithChar])
  | cons c cs =>
    have hc : c = '[' := by simpa [startsWithChar] using h1
    subst hc
    rw [buildLine, if_neg (by simp [startsWithChar]), if_neg (by simp),
      if_pos (by rw [Bool.and_eq_true]; exact ⟨by simp [startsWithChar], h2⟩)]

theorem buildLine_kvp_noSection (st : BuildState) {l : Str}
    (hst : st.in_section = false) (hskip : skippable l = false)
    (hsec : isSectionLine l = false) (heq : containsChar '=' l = true) :
    buildLine st l = .error .kvpBeforeSection := by
  rw [skippable] at hskip
  simp only [Bool.or_eq_false_iff] at hskip
  obtain ⟨⟨ha, hb⟩, hlen⟩ := hskip
  rw [buildLine, if_neg (by simp [ha, hb]), if_neg (by simpa using hlen),
    if_neg (by rw [isSectionLine] at hsec; simp [hsec]), if_pos heq,
    if_pos (by simp [hst])]

theorem buildLine_unrecognized (st : BuildState) {l : Str}
    (hskip : skippable l = false) (hsec : isSectionLine l = false)
    (heq : containsChar '=' l = false) :
    buildLine st l = .error .unrecognizedLine := by
  rw [skippable] at hskip
  simp only [Bool.or_eq_false_iff] at hskip
  obtain ⟨⟨ha, hb⟩, hlen⟩ := hskip
  rw [buildLine, if_neg (by simp [ha, hb]), if_neg (by simpa using hlen),
    if_neg (by rw [isSectionLine] at hsec; simp [hsec]), if_neg (by simp [heq])]

/-! ## Well-formedness of parsed documents -/


theorem goodSecName_sectionNameOf {line : Str} (hnl : '\n' ∉ line) :
    goodSecName (sectionNameOf line) := by
  refine ⟨?_, ?_, ?_, noLeadWs_rustTrim _, noTrailWs_rustTrim _⟩
  · intro h
    have h2 := mem_of_mem_rustTrim h
    rw [List.mem_filter] at h2
    rw [List.mem_filter] at h2
    obtain ⟨⟨-, hp⟩, -⟩ := h2
    simp at hp
  · intro h
    have h2 := mem_of_mem_rustTrim h
    rw [List.mem_filter] at h2
    obtain ⟨-, hp⟩ := h2
    simp at hp
  · intro h
    have h2 := mem_of_mem_rustTrim h
    rw [List.mem_filter] at h2
    obtain ⟨h3, -⟩ := h2
    rw [List.mem_filter] at h3
    exact hnl h3.1

theorem buildLine_kvpLine (cs : Str) (m : ConfigMap) (k v : Str) {sm : Sect}
    (hg : goodPair k v) (hl : lookupA cs m = some sm) :
    buildLine ⟨true, cs, m⟩ (kvpLine (k, v)) =
      .ok ⟨true, cs, insertSorted cs (insertSorted k v sm) m⟩ := by
  obtain ⟨hk, -, -, hcm, hbr⟩ := hg
  have hcomment : (startsWithChar '#' (kvpLine (k, v)) ||
      startsWithChar ';' (kvpLine (k, v))) = false := by
    cases k with
    | nil => simp [kvpLine, startsWithChar]
    | cons c cs =>
      obtain ⟨h1, h2⟩ := hcm c rfl
      simp [kvpLine, startsWithChar, h1, h2]
  have hlen : ¬ (kvpLine (k, v)).length = 0 := by
    cases k <;> simp [kvpLine]
  have hsec : (startsWithChar '[' (kvpLine (k, v)) &&
      containsChar ']' (kvpLine (k, v))) = false := by
    cases k with
    | nil => simp [kvpLine, startsWithChar]
    | cons c cs =>
      by_cases hc : c = '['
      · subst hc
        obtain ⟨hbk, hbv⟩ := hbr rfl
        have hnc : containsChar ']' (kvpLine ('[' :: cs, v)) = false := by
          rw [containsChar_eq_false]
          intro hmem
          rw [kvpLine] at hmem
          rcases List.mem_append.mp hmem with h | h
          · exact hbk h
          · rcases List.mem_cons.mp h with h | h
            · exact absurd h (by simp)
            · exact hbv h
        simp [hnc]
      · simp [kvpLine, startsWithChar, hc]
  have heq : containsChar '=' (kvpLine (k, v)) = true := by
    rw [containsChar_iff, kvpLine]
    exact List.mem_append_right _ (List.mem_cons_self _ _)
  rw [buildLine, if_neg (by simp [hcomment]), if_neg hlen, if_neg (by simp [hsec]),
    if_pos heq, if_neg (by simp), kvpLine, splitOnce_append '=' v hk, hl]

theorem buildLoop_cons_ok {st st2 : BuildState} {l : Str} (ls : List Str)
    (h : buildLine st l = .ok st2) : buildLoop st (l :: ls) = buildLoop st2 ls := by
  rw [buildLoop, h]

theorem buildLine_wf {st st1 : BuildState} {l : Str} (hnl : '\n' ∉ l)
    (hwf : WFmap st.map) (hcur : st.in_section = true → goodSecName st.cur_sec)
    (h : buildLine st l = .ok st1) :
    WFmap st1.map ∧ (st1.in_section = true → goodSecName st1.cur_sec) := by
  by_cases hcm : (startsWithChar '#' l || startsWithChar ';' l) = true
  · rw [buildLine, if_pos hcm] at h
    injection h with h2
    subst h2
    exact ⟨hwf, hcur⟩
  · by_cases hlen : l.length = 0
    · rw [buildLine, if_neg hcm, if_pos hlen] at h
      injection h with h2
      subst h2
      exact ⟨hwf, hcur⟩
    · by_cases hsec : (startsWithChar '[' l && containsChar ']' l) = true
      · rw [buildLine, if_neg hcm, if_neg hlen, if_pos hsec] at h
        injection h with h2
        subst h2
        have hgood : goodSecName (sectionNameOf l) := goodSecName_sectionNameOf hnl
        refine ⟨⟨keySorted_insertSorted _ _ hwf.1, ?_⟩, fun _ => hgood⟩
        intro p hp
        rcases mem_insertSorted hp with h2 | h2
        · rw [h2]
          exact ⟨hgood, ⟨List.Pairwise.nil, by simp⟩⟩
        · exact hwf.2 p h2
      · by_cases heq : containsChar '=' l = true
        · rw [buildLine, if_neg hcm, if_neg hlen, if_neg hsec, if_pos heq] at h
          by_cases hst : st.in_section = true
          · rw [if_neg (by simp [hst])] at h
            cases hsplit : splitOnce '=' l with
            | none => rw [hsplit] at h; exact Except.noConfusion h
            | some kvp =>
              obtain ⟨k, v⟩ := kvp
              rw [hsplit] at h
              cases hlook : lookupA st.cur_sec st.map with
              | none => rw [hlook] at h; exact Except.noConfusion h
              | some sm =>
                rw [hlook] at h
                injection h with h2
                subst h2
                obtain ⟨hle, hkn⟩ := splitOnce_some hsplit
                have hnlk : '\n' ∉ k := fun hh =>
                  hnl (hle ▸ List.mem_append_left _ hh)
                have hnlv : '\n' ∉ v := fun hh =>
                  hnl (hle ▸ List.mem_append_right _ (List.mem_cons_of_mem _ hh))
                have hgp : goodPair k v := by
                  refine ⟨hkn, hnlk, hnlv, ?_, ?_⟩
                  · intro c hc
                    have hlh : l.head? = some c := by
                      cases k with
                      | nil => exact Option.noConfusion hc
                      | cons d ds =>
                        have hdc : d = c := by simpa using hc
                        rw [hle, List.cons_append, List.head?_cons, hdc]
                    constructor
                    · intro hcc
                      apply hcm
                      cases l with
                      | nil => exact Option.noConfusion hlh
                      | cons d ds =>
                        rw [(by simpa using hlh : d = c), hcc]
                        simp [startsWithChar]
                    · intro hcc
                      apply hcm
                      cases l with
                      | nil => exact Option.noConfusion hlh
                      | cons d ds =>
                        rw [(by simpa using hlh : d = c), hcc]
                        simp [startsWithChar]
                  · intro hkh
                    have hlst : startsWithChar '[' l = true := by
                      cases k with
                      | nil => exact Option.noConfusion hkh
                      | cons d ds =>
                        rw [hle, (by simpa using hkh : d = '[')]
                        simp [startsWithChar]
                    have hnc : containsChar ']' l = false := by
                      cases hcc : containsChar ']' l with
                      | false => rfl
                      | true => exact absurd (by rw [hlst, hcc]; rfl) hsec
                    rw [containsChar_eq_false, hle] at hnc
                    constructor
                    · exact fun hh => hnc (List.mem_append_left _ hh)
                    · exact fun hh =>
                        hnc (List.mem_append_right _ (List.mem_cons_of_mem _ hh))
                have hsm : goodSect sm := by
                  have hmem := lookupA_mem hlook
                  exact (hwf.2 _ hmem).2
                have hcg : goodSecName st.cur_sec := hcur hst
                refine ⟨⟨keySorted_insertSorted _ _ hwf.1, ?_⟩, fun _ => hcg⟩
                intro p hp
                rcases mem_insertSorted hp with h2 | h2
                · rw [h2]
                  refine ⟨hcg, keySorted_insertSorted _ _ hsm.1, ?_⟩
                  intro q hq
                  rcases mem_insertSorted hq with h3 | h3
                  · rw [h3]
                    exact hgp
                  · exact hsm.2 q h3
                · exact hwf.2 p h2
          · rw [if_pos (by simp [Bool.not_eq_true] at hst; simp [hst])] at h
            exact Except.noConfusion h
        · rw [buildLine, if_neg hcm, if_neg hlen, if_neg hsec, if_neg heq] at h
          exact Except.noConfusion h

theorem buildLoop_wf : ∀ {lines : List Str} {st st1 : BuildState},
    (∀ l ∈ lines, '\n' ∉ l) → WFmap st.map →
    (st.in_section = true → goodSecName st.cur_sec) →
    buildLoop st lines = .ok st1 →
    WFmap st1.map := by
  intro lines
  induction lines with
  | nil =>
    intro st st1 _ hwf _ h
    rw [buildLoop] at h
    injection h with h2
    subst h2
    exact hwf
  | cons l ls ih =>
    intro st st1 hnl hwf hcur h
    rw [buildLoop] at h
    cases hb : buildLine st l with
    | error e => rw [hb] at h; exact Except.noConfusion h
    | ok st2 =>
      rw [hb] at h
      obtain ⟨hwf2, hcur2⟩ :=
        buildLine_wf (hnl l (List.mem_cons_self _ _)) hwf hcur hb
      exact ih (fun x hx => hnl x (List.mem_cons_of_mem _ hx)) hwf2 hcur2 h

theorem build_struct_wf {lines : List Str} {ini : Ini}
    (hnl : ∀ l ∈ lines, '\n' ∉ l) (h : build_struct lines = .ok ini) :
    WFmap ini.config_map := by
  rw [build_struct] at h
  cases hb : buildLoop ⟨false, [], []⟩ lines with
  | error e => rw [hb] at h; exact Except.noConfusion h
  | ok st =>
    rw [hb] at h
    have hwf0 : WFmap ([] : ConfigMap) := ⟨List.Pairwise.nil, by simp⟩
    have hwf := buildLoop_wf hnl hwf0 (fun hh => Bool.noConfusion hh) hb
    injection h with h2
    subst h2
    exact hwf

/-! ## Round trip: re-parsing the serialized text -/


theorem splitLines_kvps (s : Sect) (rest : Str)
    (hg : ∀ p ∈ s, goodPair p.1 p.2) :
    splitLines ((s.map (renderKvp ['\n'])).flatten ++ rest)
      = s.map kvpLine ++ splitLines rest := by
  induction s with
  | nil => simp
  | cons p s2 ih =>
    obtain ⟨k, v⟩ := p
    obtain ⟨-, hnlk, hnlv, -, -⟩ := hg (k, v) (List.mem_cons_self _ _)
    have hnl : '\n' ∉ kvpLine (k, v) := by
      rw [kvpLine]
      intro hmem
      rcases List.mem_append.mp hmem with h | h
      · exact hnlk h
      · rcases List.mem_cons.mp h with h | h
        · exact absurd h (by simp)
        · exact hnlv h
    have harr : (((k, v) :: s2).map (renderKvp ['\n'])).flatten ++ rest
        = kvpLine (k, v) ++ '\n' :: ((s2.map (renderKvp ['\n'])).flatten ++ rest) := by
      simp [renderKvp, kvpLine, List.append_assoc]
    rw [harr, splitLines_append _ hnl,
      ih (fun q hq => hg q (List.mem_cons_of_mem _ hq))]
    rfl

theorem splitLines_render (m : ConfigMap)
    (hg : ∀ p ∈ m, goodSecName p.1 ∧ ∀ q ∈ p.2, goodPair q.1 q.2) :
    splitLines ((m.map (renderSec ['\n'])).flatten) = renderedLines m ++ [[]] := by
  induction m with
  | nil => simp [splitLines, renderedLines]
  | cons p m2 ih =>
    obtain ⟨S, s⟩ := p
    obtain ⟨hS, hpairs⟩ := hg (S, s) (List.mem_cons_self _ _)
    have hnl : '\n' ∉ '[' :: (S ++ [']']) := by
      intro hmem
      rcases List.mem_cons.mp hmem with h | h
      · exact absurd h (by simp)
      · rcases List.mem_append.mp h with h | h
        · exact hS.2.2.1 h
        · exact absurd (List.mem_singleton.mp h) (by simp)
    have harr : (((S, s) :: m2).map (renderSec ['\n'])).flatten
        = ('[' :: (S ++ [']'])) ++
          '\n' :: ((s.map (renderKvp ['\n'])).flatten ++
            (m2.map (renderSec ['\n'])).flatten) := by
      simp [renderSec, List.append_assoc]
    rw [harr, splitLines_append _ hnl, splitLines_kvps s _ hpairs,
      ih (fun q hq => hg q (List.mem_cons_of_mem _ hq))]
    simp [renderedLines, secLines]

theorem buildLoop_replay_kvps (S : Str) (m1 : ConfigMap) (L : List Str)
    (hm1 : ∀ p ∈ m1, strLt p.1 S = true) :
    ∀ (r t : Sect), KeySorted (t ++ r) → (∀ p ∈ r, goodPair p.1 p.2) →
      buildLoop ⟨true, S, m1 ++ [(S, t)]⟩ (r.map kvpLine ++ L)
        = buildLoop ⟨true, S, m1 ++ [(S, t ++ r)]⟩ L := by
  intro r
  induction r with
  | nil =>
    intro t _ _
    rw [List.map_nil, List.nil_append, List.append_nil]
  | cons p r2 ih =>
    intro t hsorted hgood
    obtain ⟨k, v⟩ := p
    have hne : ∀ q ∈ m1, q.1 ≠ S := fun q hq => strLt_ne (hm1 q hq)
    have hlook : lookupA S (m1 ++ [(S, t)]) = some t := by
      rw [lookupA_append_right S _ hne, lookupA_single_self]
    have hstep := buildLine_kvpLine S (m1 ++ [(S, t)]) k v
      (hgood (k, v) (List.mem_cons_self _ _)) hlook
    have htk : ∀ q ∈ t, strLt q.1 k = true := by
      intro q hq
      rw [KeySorted, List.pairwise_append] at hsorted
      exact hsorted.2.2 q hq (k, v) (List.mem_cons_self _ _)
    rw [List.map_cons, List.cons_append, buildLoop_cons_ok _ hstep,
      insertSorted_append_last k v htk, insertSorted_replace_last S t _ hm1,
      ih (t ++ [(k, v)]) (by rw [List.append_assoc]; exact hsorted)
        (fun q hq => hgood q (List.mem_cons_of_mem _ hq)),
      List.append_assoc]
    rfl

theorem buildLoop_replay_secs :
    ∀ (m2 m1 : ConfigMap) (b : Bool) (cs : Str), KeySorted (m1 ++ m2) →
      (∀ p ∈ m2, goodSecName p.1 ∧ goodSect p.2) →
      ∃ st1, buildLoop ⟨b, cs, m1⟩ (renderedLines m2 ++ [[]]) = .ok st1 ∧
        st1.map = m1 ++ m2 := by
  intro m2
  induction m2 with
  | nil =>
    intro m1 b cs _ _
    refine ⟨⟨b, cs, m1⟩, ?_, by simp⟩
    rw [renderedLines, List.map_nil, List.flatten_nil, List.nil_append,
      buildLoop_cons_ok _ (buildLine_skip _ (by rw [skippable]; simp)), buildLoop]
  | cons p m2' ih =>
    intro m1 b cs hsorted hgood
    obtain ⟨S, s⟩ := p
    obtain ⟨hS, hsect⟩ := hgood (S, s) (List.mem_cons_self _ _)
    have hm1S : ∀ q ∈ m1, strLt q.1 S = true := by
      intro q hq
      rw [KeySorted, List.pairwise_append] at hsorted
      exact hsorted.2.2 q hq (S, s) (List.mem_cons_self _ _)
    have hheader : isSectionLine ('[' :: (S ++ [']'])) = true := by
      rw [isSectionLine]
      refine (Bool.and_eq_true ..).mpr ⟨by simp [startsWithChar], ?_⟩
      rw [containsChar_iff]
      exact List.mem_cons_of_mem _ (List.mem_append_right _ (List.mem_singleton.mpr rfl))
    have hname : sectionNameOf ('[' :: (S ++ [']'])) = S := by
      rw [sectionNameOf]
      have hf1 : ('[' :: (S ++ [']'])).filter (fun c => !(c = '[')) = S ++ [']'] := by
        rw [List.filter_cons_of_neg (by simp), List.filter_append,
          List.filter_eq_self.mpr (fun c hc => by
            have hcb : c ≠ '[' := fun hh => hS.1 (hh ▸ hc)
            simp [hcb]),
          List.filter_eq_self.mpr (by simp)]
      rw [hf1, List.filter_append,
        List.filter_eq_self.mpr (fun c hc => by
          have hcb : c ≠ ']' := fun hh => hS.2.1 (hh ▸ hc)
          simp [hcb])]
      simp only [List.filter_cons, List.filter_nil]
      rw [if_neg (by simp), List.append_nil]
      exact rustTrim_eq_self hS.2.2.2.1 hS.2.2.2.2
    have harr : renderedLines ((S, s) :: m2') ++ [[]]
        = ('[' :: (S ++ [']'])) :: (s.map kvpLine ++ (renderedLines m2' ++ [[]])) := by
      simp [renderedLines, secLines, List.append_assoc]
    have hsec2 := buildLine_section ⟨b, cs, m1⟩ hheader
    rw [hname] at hsec2
    rw [harr, buildLoop_cons_ok _ hsec2, insertSorted_append_last S [] hm1S,
      buildLoop_replay_kvps S m1 _ hm1S s [] (by simpa using hsect.1)
        hsect.2, List.nil_append]
    obtain ⟨st1, hrun, hmap⟩ := ih (m1 ++ [(S, s)]) true S
      (by rw [List.append_assoc]; exact hsorted)
      (fun q hq => hgood q (List.mem_cons_of_mem _ hq))
    refine ⟨st1, hrun, ?_⟩
    rw [hmap, List.append_assoc]
    rfl

/-- Content round trip for any well-formed map: serializing with the Linux
line terminator and re-parsing restores exactly the same map. -/
theorem roundtrip_wf (m : ConfigMap) (f : Str) (hwf : WFmap m) :
    ∃ s, to_string .linux ⟨m, f⟩ = .ok s ∧ from_string s = .ok ⟨m, []⟩ := by
  by_cases hm : m = []
  · subst hm
    exact ⟨[], rfl, rfl⟩
  · refine ⟨(m.map (renderSec ['\n'])).flatten, ?_, ?_⟩
    · rw [to_string]
      simp only [newLineFor]
      rw [if_neg hm]
    · rw [from_string, splitLines_render m
        (fun p hp => ⟨(hwf.2 p hp).1, (hwf.2 p hp).2.2⟩)]
      obtain ⟨st1, hrun, hmap⟩ := buildLoop_replay_secs m [] false []
        (by rw [List.nil_append]; exact hwf.1) hwf.2
      obtain ⟨b1, cs1, map1⟩ := st1
      have hm2 : map1 = m := by simpa using hmap
      rw [build_struct, hrun, hm2]

/-! ## Further supporting lemmas for the claims -/

theorem buildLoop_cons_error {st : BuildState} {l : Str} {e : IniError}
    (ls : List Str) (h : buildLine st l = .error e) :
    buildLoop st (l :: ls) = .error e := by
  rw [buildLoop, h]

theorem build_struct_of_buildLoop_error {lines : List Str} {e : IniError}
    (h : buildLoop ⟨false, [], []⟩ lines = .error e) :
    build_struct lines = .error e := by
  rw [build_struct, h]

theorem rustTrimStart_eq_self_iff {v : Str} :
    rustTrimStart v = v ↔ noLeadWs v := by
  constructor
  · intro h
    rw [← h]
    exact noLeadWs_rustTrimStart v
  · exact rustTrimStart_eq_self

theorem rustTrimStart_decomp (v : Str) :
    (∀ c ∈ v.takeWhile isRustWhitespace, isRustWhitespace c = true) ∧
      v = v.takeWhile isRustWhitespace ++ rustTrimStart v :=
  ⟨fun _ hc => List.mem_takeWhile_imp hc,
    (List.takeWhile_append_dropWhile isRustWhitespace v).symm⟩

theorem get_of_lookups {ini : Ini} {sec key v : Str} {sm : Sect}
    (hs : lookupA sec ini.config_map = some sm)
    (hk : lookupA key sm = some v) :
    get ini sec key = some (rustTrimStart v) := by
  simp only [get, hs, hk]

theorem get_set_self (ini : Ini) (sec key v : Str) :
    get (set ini sec key v) sec key = some (rustTrimStart v) := by
  apply get_of_lookups
  · rw [set]
    exact lookupA_insertSorted_self _ _ _
  · exact lookupA_insertSorted_self _ _ _

theorem lookupA_set_self (ini : Ini) (sec key v : Str) :
    lookupA sec (set ini sec key v).config_map =
      some (insertSorted key v ((lookupA sec ini.config_map).getD [])) ∧
    lookupA key (insertSorted key v ((lookupA sec ini.config_map).getD [])) =
      some v := by
  rw [set]
  simp only
  rw [lookupA_insertSorted_self, lookupA_insertSorted_self]
  exact ⟨rfl, rfl⟩

/-- Sortedness-only invariant of the build loop (no assumption on the lines). -/
theorem buildLine_sorted {st st1 : BuildState} {l : Str}
    (hs : KeySorted st.map) (hin : ∀ p ∈ st.map, KeySorted p.2)
    (h : buildLine st l = .ok st1) :
    KeySorted st1.map ∧ ∀ p ∈ st1.map, KeySorted p.2 := by
  by_cases hcm : (startsWithChar '#' l || startsWithChar ';' l) = true
  · rw [buildLine, if_pos hcm] at h
    injection h with h2
    subst h2
    exact ⟨hs, hin⟩
  · by_cases hlen : l.length = 0
    · rw [buildLine, if_neg hcm, if_pos hlen] at h
      injection h with h2
      subst h2
      exact ⟨hs, hin⟩
    · by_cases hsec : (startsWithChar '[' l && containsChar ']' l) = true
      · rw [buildLine, if_neg hcm, if_neg hlen, if_pos hsec] at h
        injection h with h2
        subst h2
        refine ⟨keySorted_insertSorted _ _ hs, ?_⟩
        intro p hp
        rcases mem_insertSorted hp with h2 | h2
        · rw [h2]
          exact List.Pairwise.nil
        · exact hin p h2
      · by_cases heq : containsChar '=' l = true
        · rw [buildLine, if_neg hcm, if_neg hlen, if_neg hsec, if_pos heq] at h
          by_cases hst : st.in_section = true
          · rw [if_neg (by simp [hst])] at h
            cases hsplit : splitOnce '=' l with
            | none => rw [hsplit] at h; exact Except.noConfusion h
            | some kvp =>
              rw [hsplit] at h
              cases hlook : lookupA st.cur_sec st.map with
              | none => rw [hlook] at h; exact Except.noConfusion h
              | some sm =>
                rw [hlook] at h
                injection h with h2
                subst h2
                refine ⟨keySorted_insertSorted _ _ hs, ?_⟩
                intro p hp
                rcases mem_insertSorted hp with h2 | h2
                · rw [h2]
                  exact keySorted_insertSorted _ _ (hin _ (lookupA_mem hlook))
                · exact hin p h2
          · rw [if_pos (by simp [Bool.not_eq_true] at hst; simp [hst])] at h
            exact Except.noConfusion h
        · rw [buildLine, if_neg hcm, if_neg hlen, if_neg hsec, if_neg heq] at h
          exact Except.noConfusion h

theorem buildLoop_sorted : ∀ {lines : List Str} {st st1 : BuildState},
    KeySorted st.map → (∀ p ∈ st.map, KeySorted p.2) →
    buildLoop st lines = .ok st1 →
    KeySorted st1.map ∧ ∀ p ∈ st1.map, KeySorted p.2 := by
  intro lines
  induction lines with
  | nil =>
    intro st st1 hs hin h
    rw [buildLoop] at h
    injection h with h2
    subst h2
    exact ⟨hs, hin⟩
  | cons l ls ih =>
    intro st st1 hs hin h
    rw [buildLoop] at h
    cases hb : buildLine st l with
    | error e => rw [hb] at h; exact Except.noConfusion h
    | ok st2 =>
      rw [hb] at h
      obtain ⟨hs2, hin2⟩ := buildLine_sorted hs hin hb
      exact ih hs2 hin2 h

theorem build_struct_sorted {lines : List Str} {ini : Ini}
    (h : build_struct lines = .ok ini) :
    KeySorted ini.config_map ∧ ∀ p ∈ ini.config_map, KeySorted p.2 := by
  rw [build_struct] at h
  cases hb : buildLoop ⟨false, [], []⟩ lines with
  | error e => rw [hb] at h; exact Except.noConfusion h
  | ok st =>
    rw [hb] at h
    injection h with h2
    subst h2
    have h0 : KeySorted (⟨false, [], []⟩ : BuildState).map := List.Pairwise.nil
    exact buildLoop_sorted h0 (by simp) hb

/-- Core of the KVP-before-section analysis: with no section open, a line
list holding a KVP line with no section header before it makes the loop
fail; when everything before it is a comment or blank, the failure is
`kvpBeforeSection`. -/
theorem buildLoop_kvp_before {l : Str} (post : List Str)
    (hkvp : isKvpLine l = true) :
    ∀ (pre : List Str) (st : BuildState), st.in_section = false →
      (∀ x ∈ pre, isSectionLine x = false) →
      (∃ e, buildLoop st (pre ++ l :: post) = .error e) ∧
      ((∀ x ∈ pre, skippable x = true) →
        buildLoop st (pre ++ l :: post) = .error .kvpBeforeSection) := by
  have hk : skippable l = false ∧ isSectionLine l = false ∧
      containsChar '=' l = true := by
    rw [isKvpLine] at hkvp
    simp only [Bool.and_eq_true, Bool.not_eq_true'] at hkvp
    exact ⟨hkvp.1.1, hkvp.1.2, hkvp.2⟩
  intro pre
  induction pre with
  | nil =>
    intro st hst _
    have herr := buildLine_kvp_noSection st hst hk.1 hk.2.1 hk.2.2
    rw [List.nil_append]
    exact ⟨⟨.kvpBeforeSection, buildLoop_cons_error post herr⟩,
      fun _ => buildLoop_cons_error post herr⟩
  | cons x pre2 ih =>
    intro st hst hnosec
    have hxsec : isSectionLine x = false := hnosec x (List.mem_cons_self _ _)
    by_cases hskip : skippable x = true
    · rw [List.cons_append, buildLoop_cons_ok _ (buildLine_skip st hskip)]
      obtain ⟨h1, h2⟩ := ih st hst (fun y hy => hnosec y (List.mem_cons_of_mem _ hy))
      exact ⟨h1, fun hall => h2 (fun y hy => hall y (List.mem_cons_of_mem _ hy))⟩
    · rw [Bool.not_eq_true] at hskip
      by_cases hxeq : containsChar '=' x = true
      · have herr := buildLine_kvp_noSection st hst hskip hxsec hxeq
        rw [List.cons_append]
        exact ⟨⟨.kvpBeforeSection, buildLoop_cons_error _ herr⟩,
          fun _ => buildLoop_cons_error _ herr⟩
      · have herr := buildLine_unrecognized st hskip hxsec
          (by rw [Bool.not_eq_true] at hxeq; exact hxeq)
        rw [List.cons_append]
        refine ⟨⟨.unrecognizedLine, buildLoop_cons_error _ herr⟩, ?_⟩
        intro hall
        exact absurd (hall x (List.mem_cons_self _ _)) (by simp [hskip])

/-! ## The claims -/

/-- C1, counterexample to the claim as stated: the stored value of key `k`
in section `s` is `"  x"` (beginning with exactly one space followed by a
further space), yet `get` returns `"x"`, not the claimed `" x"` with only
the single leading space removed: `trim_start` removes every leading
whitespace character. -/
theorem C1_counterexample :
    get ⟨[(['s'], [(['k'], [' ', ' ', 'x'])])], []⟩ ['s'] ['k'] = some ['x'] ∧
    some ['x'] ≠ some [' ', 'x'] := by
  decide

/-- C1 (amended): for every document and section/key pair whose stored
value `v` is present, `get` returns `v` with its whole maximal leading run
of whitespace characters (spaces, tabs, any Unicode whitespace) removed  —
not just a single leading space: the result has no leading whitespace, and
`v` is exactly the dropped whitespace run followed by the result. -/
theorem C1_amended (ini : Ini) (sec key v : Str) (sm : Sect)
    (hs : lookupA sec ini.config_map = some sm)
    (hk : lookupA key sm = some v) :
    get ini sec key = some (rustTrimStart v) ∧
    noLeadWs (rustTrimStart v) ∧
    v = v.takeWhile isRustWhitespace ++ rustTrimStart v ∧
    (∀ c ∈ v.takeWhile isRustWhitespace, isRustWhitespace c = true) :=
  ⟨get_of_lookups hs hk, noLeadWs_rustTrimStart v,
    (rustTrimStart_decomp v).2, (rustTrimStart_decomp v).1⟩

/-- C1 witness: the amended theorem applied to a concrete document storing
the value `" a"` under section `s`, key `k`. -/
theorem C1_witness :
    get ⟨[(['s'], [(['k'], [' ', 'a'])])], []⟩ ['s'] ['k'] =
      some (rustTrimStart [' ', 'a']) ∧
    noLeadWs (rustTrimStart [' ', 'a']) ∧
    [' ', 'a'] = ([' ', 'a'] : Str).takeWhile isRustWhitespace ++
      rustTrimStart [' ', 'a'] ∧
    (∀ c ∈ ([' ', 'a'] : Str).takeWhile isRustWhitespace,
      isRustWhitespace c = true) :=
  C1_amended ⟨[(['s'], [(['k'], [' ', 'a'])])], []⟩ ['s'] ['k'] [' ', 'a']
    [(['k'], [' ', 'a'])] rfl rfl

/-- C2, counterexample to the claim as stated: parsing the lines
`[A]`, `k=1`, `[A]`, `j=2` yields a document whose section `A` holds only
`j`; the key `k` parsed earlier under that name was lost, because the
parser inserts a fresh empty bucket on a repeated section header instead
of reusing the existing one. -/
theorem C2_counterexample :
    build_struct [['[', 'A', ']'], ['k', '=', '1'], ['[', 'A', ']'],
        ['j', '=', '2']] =
      .ok ⟨[(['A'], [(['j'], ['2'])])], []⟩ ∧
    get ⟨[(['A'], [(['j'], ['2'])])], []⟩ ['A'] ['k'] = none := by
  decide

/-- C2 (amended): when the parser meets a section-header line — whether or
not a section of that name already exists — it binds the name to a fresh
empty bucket in the document map, so every key previously stored under
that name is dropped; subsequent key-value lines go into the fresh
bucket. -/
theorem C2_amended (st : BuildState) (l : Str) (h : isSectionLine l = true) :
    buildLine st l =
      .ok ⟨true, sectionNameOf l, insertSorted (sectionNameOf l) [] st.map⟩ ∧
    lookupA (sectionNameOf l) (insertSorted (sectionNameOf l) [] st.map) =
      some [] :=
  ⟨buildLine_section st h, lookupA_insertSorted_self _ _ _⟩

/-- C2 witness: the amended theorem applied to a build state that already
holds a key under section `A`, and the header line `[A]`. -/
theorem C2_witness :
    buildLine ⟨true, ['A'], [(['A'], [(['k'], ['1'])])]⟩ ['[', 'A', ']'] =
      .ok ⟨true, sectionNameOf ['[', 'A', ']'],
        insertSorted (sectionNameOf ['[', 'A', ']']) []
          [(['A'], [(['k'], ['1'])])]⟩ ∧
    lookupA (sectionNameOf ['[', 'A', ']'])
      (insertSorted (sectionNameOf ['[', 'A', ']']) []
        [(['A'], [(['k'], ['1'])])]) = some [] :=
  C2_amended ⟨true, ['A'], [(['A'], [(['k'], ['1'])])]⟩ ['[', 'A', ']']
    (by decide)

/-- C3, counterexample to the claim as stated: for the section-header line
`[a[b]]` the claim predicts the recorded name `a[b]` (one leading `[` and
one `]` removed; further brackets kept) — or `a[b` on the reading
"text between the first `[` and the first `]`" — but the parser records
`ab`: `replace` removes every `[` and every `]` in the line. -/
theorem C3_counterexample :
    build_struct [['[', 'a', '[', 'b', ']', ']']] =
      .ok ⟨[(['a', 'b'], [])], []⟩ ∧
    lookupA ['a', '[', 'b', ']'] [((['a', 'b'] : Str), ([] : Sect))] = none ∧
    lookupA ['a', '[', 'b'] [((['a', 'b'] : Str), ([] : Sect))] = none := by
  decide

/-- C3 (amended): for every section-header line, the recorded section name
is the line with every occurrence of `[` and of `]` removed (however many
there are), then trimmed of surrounding whitespace. -/
theorem C3_amended (st : BuildState) (l : Str) (h : isSectionLine l = true) :
    buildLine st l =
      .ok ⟨true, sectionNameOf l, insertSorted (sectionNameOf l) [] st.map⟩ ∧
    sectionNameOf l = rustTrim (l.filter (fun c => !(c = '[' || c = ']'))) := by
  refine ⟨buildLine_section st h, ?_⟩
  rw [sectionNameOf]
  congr 1
  rw [List.filter_filter]
  apply List.filter_congr
  intro c _
  by_cases h1 : c = '['
  · simp [h1]
  · by_cases h2 : c = ']' <;> simp [h1, h2]

/-- C3 witness: the amended theorem applied to the concrete header line
`[a[b]]` from the empty build state. -/
theorem C3_witness :
    buildLine ⟨false, [], []⟩ ['[', 'a', '[', 'b', ']', ']'] =
      .ok ⟨true, sectionNameOf ['[', 'a', '[', 'b', ']', ']'],
        insertSorted (sectionNameOf ['[', 'a', '[', 'b', ']', ']']) [] []⟩ ∧
    sectionNameOf ['[', 'a', '[', 'b', ']', ']'] =
      rustTrim ((['[', 'a', '[', 'b', ']', ']'] : Str).filter
        (fun c => !(c = '[' || c = ']'))) :=
  C3_amended ⟨false, [], []⟩ ['[', 'a', '[', 'b', ']', ']'] (by decide)

/-- C4: for every text the parser accepts, producing document D,
serializing D (with the Linux line terminator) and re-parsing the result
succeeds and restores exactly D's section-to-key-to-value mapping:
the round trip preserves content (comments and blank lines having been
discarded at the first parse). -/
theorem C4_roundtrip (T : Str) (D : Ini) (h : from_string T = .ok D) :
    ∃ s D2, to_string OS.linux D = .ok s ∧ from_string s = .ok D2 ∧
      D2.config_map = D.config_map := by
  rw [from_string] at h
  have hwf := build_struct_wf (splitLines_no_nl T) h
  obtain ⟨s, hts, hfs⟩ := roundtrip_wf D.config_map D.config_file hwf
  exact ⟨s, ⟨D.config_map, []⟩, hts, hfs, rfl⟩

/-- C4 witness: the round-trip theorem applied to the concrete input
text consisting of a section header and one key-value line. -/
theorem C4_witness :
    from_string (String.toList "[a]\nk=v") =
      .ok ⟨[(['a'], [(['k'], ['v'])])], []⟩ ∧
    ∃ s D2,
      to_string OS.linux ⟨[(['a'], [(['k'], ['v'])])], []⟩ = .ok s ∧
      from_string s = .ok D2 ∧
      D2.config_map = (⟨[(['a'], [(['k'], ['v'])])], []⟩ : Ini).config_map :=
  ⟨by decide, C4_roundtrip (String.toList "[a]\nk=v")
    ⟨[(['a'], [(['k'], ['v'])])], []⟩ (by decide)⟩

/-- C5: for every path the filesystem reports as nonexistent, `new`
returns Ok with an empty configuration map and that very path as the
bound `config_file` — never an error. -/
theorem C5_new_nonexistent (fs : Str → ReadResult) (path : Str)
    (h : fs path = .notExists) :
    new fs path = .ok ⟨[], path⟩ := by
  rw [new, h]

/-- C5 witness: loading a concrete path on a filesystem where nothing
exists. -/
theorem C5_witness :
    new (fun _ => ReadResult.notExists) ['a'] = .ok ⟨[], ['a']⟩ :=
  C5_new_nonexistent (fun _ => ReadResult.notExists) ['a'] rfl

/-- C6, counterexample to the claim as stated: in the two-line input
`??`, `a=b` the key-value line `a=b` occurs before any section header, but
the parse fails with the line-syntax error produced for `??`, not with the
KvpBeforeSection error the claim promises for every such input. -/
theorem C6_counterexample :
    isKvpLine ['a', '=', 'b'] = true ∧
    isSectionLine ['?', '?'] = false ∧
    build_struct [['?', '?'], ['a', '=', 'b']] = .error .unrecognizedLine ∧
    IniError.unrecognizedLine ≠ IniError.kvpBeforeSection := by
  decide

/-- C6 (amended): whenever a key-value line occurs with no section header
anywhere before it, the whole parse fails (all-or-nothing, no partial
document: the result is an error); and when additionally every line before
it is a comment or blank line, the error is precisely KvpBeforeSection. -/
theorem C6_amended (pre post : List Str) (l : Str)
    (hkvp : isKvpLine l = true)
    (hnosec : ∀ x ∈ pre, isSectionLine x = false) :
    (∃ e, build_struct (pre ++ l :: post) = .error e) ∧
    ((∀ x ∈ pre, skippable x = true) →
      build_struct (pre ++ l :: post) = .error .kvpBeforeSection) := by
  obtain ⟨⟨e, he⟩, h2⟩ :=
    buildLoop_kvp_before post hkvp pre ⟨false, [], []⟩ rfl hnosec
  exact ⟨⟨e, build_struct_of_buildLoop_error he⟩,
    fun hall => build_struct_of_buildLoop_error (h2 hall)⟩

/-- C6 witness: the amended theorem applied to the concrete input with a
comment line followed by a key-value line and a trailing line. -/
theorem C6_witness :
    (∃ e, build_struct ([['#', 'c']] ++ ['a', '=', 'b'] :: [['x', '=', 'y']]) =
      .error e) ∧
    ((∀ x ∈ [(['#', 'c'] : Str)], skippable x = true) →
      build_struct ([['#', 'c']] ++ ['a', '=', 'b'] :: [['x', '=', 'y']]) =
        .error .kvpBeforeSection) :=
  C6_amended [['#', 'c']] [['x', '=', 'y']] ['a', '=', 'b'] (by decide)
    (by decide)

/-- C7: for every document whose bound path is absent (the empty
`config_file`), `save` returns the NoBoundPath error and leaves the
filesystem exactly as it was — no write happens on this error path. -/
theorem C7_save_noBoundPath (os : OS) (fs : FS) (ini : Ini)
    (h : ini.config_file = []) :
    save os fs ini = (.error .noBoundPath, fs) := by
  rw [save, if_pos h]

/-- C7 witness: saving a concrete pathless document over a concrete empty
filesystem. -/
theorem C7_witness :
    save OS.linux (fun _ => none) ⟨[], []⟩ =
      (.error .noBoundPath, fun _ => none) :=
  C7_save_noBoundPath OS.linux (fun _ => none) ⟨[], []⟩ rfl

/-- C8: on a supported platform, serializing a parsed document renders the
sections in the order of the configuration map, whose section names are
strictly ascending in the string order, with the keys inside each section
strictly ascending as well; and serializing an empty document yields the
empty string. -/
theorem C8_serialize_order (os : OS) (hos : os = OS.linux ∨ os = OS.windows)
    (lines : List Str) (ini : Ini) (hb : build_struct lines = .ok ini)
    (f : Str) :
    to_string os ini = .ok ((ini.config_map.map (renderSec
      (if os = OS.linux then ['\n'] else ['\r', '\n']))).flatten) ∧
    KeySorted ini.config_map ∧
    (∀ p ∈ ini.config_map, KeySorted p.2) ∧
    to_string os ⟨[], f⟩ = .ok [] := by
  obtain ⟨hs1, hs2⟩ := build_struct_sorted hb
  rcases hos with h | h <;> subst h
  · refine ⟨?_, hs1, hs2, rfl⟩
    rw [if_pos rfl, to_string]
    simp only [newLineFor]
    by_cases hm : ini.config_map = []
    · rw [if_pos hm, hm]
      simp
    · rw [if_neg hm]
  · refine ⟨?_, hs1, hs2, rfl⟩
    rw [if_neg (by simp), to_string]
    simp only [newLineFor]
    by_cases hm : ini.config_map = []
    · rw [if_pos hm, hm]
      simp
    · rw [if_neg hm]

/-- C8 witness: the ordering theorem applied to a concrete parse whose
input lists section `b` before section `a` and key `x` before key `k`;
the resulting map is sorted the other way round. -/
theorem C8_witness :
    to_string OS.linux ⟨[(['a'], [(['k'], ['v'])]), (['b'], [(['x'], ['y'])])], []⟩ =
      .ok (((⟨[(['a'], [(['k'], ['v'])]), (['b'], [(['x'], ['y'])])], []⟩ : Ini).config_map.map
        (renderSec (if OS.linux = OS.linux then ['\n'] else ['\r', '\n']))).flatten) ∧
    KeySorted (⟨[(['a'], [(['k'], ['v'])]), (['b'], [(['x'], ['y'])])], []⟩ : Ini).config_map ∧
    (∀ p ∈ (⟨[(['a'], [(['k'], ['v'])]), (['b'], [(['x'], ['y'])])], []⟩ : Ini).config_map,
      KeySorted p.2) ∧
    to_string OS.linux ⟨[], []⟩ = .ok [] :=
  C8_serialize_order OS.linux (Or.inl rfl)
    [['[', 'b', ']'], ['x', '=', 'y'], ['[', 'a', ']'], ['k', '=', 'v']]
    ⟨[(['a'], [(['k'], ['v'])]), (['b'], [(['x'], ['y'])])], []⟩ (by decide) []

/-- C9: after `set S k v`, the value stored in the map is `v` verbatim,
while `get S k` reads it back with all leading whitespace removed; in
particular `get` after `set` returns exactly `v` precisely when `v` does
not begin with a whitespace character. -/
theorem C9_set_get (ini : Ini) (sec key v : Str) :
    lookupA sec (set ini sec key v).config_map =
      some (insertSorted key v ((lookupA sec ini.config_map).getD [])) ∧
    lookupA key (insertSorted key v ((lookupA sec ini.config_map).getD [])) =
      some v ∧
    get (set ini sec key v) sec key = some (rustTrimStart v) ∧
    (get (set ini sec key v) sec key = some v ↔ noLeadWs v) := by
  obtain ⟨h1, h2⟩ := lookupA_set_self ini sec key v
  refine ⟨h1, h2, get_set_self ini sec key v, ?_⟩
  rw [get_set_self ini sec key v]
  constructor
  · intro h
    exact rustTrimStart_eq_self_iff.mp (Option.some_inj.mp h)
  · intro h
    rw [rustTrimStart_eq_self h]

/-- C10: the empty string doubles as "no binding": loading the empty path
(which no filesystem reports as existing) succeeds with an empty document
bound to the empty path, while saving any document whose bound path is the
empty string always fails with the NoBoundPath error. -/
theorem C10_empty_path_binding (fs : Str → ReadResult) (os : OS) (fs2 : FS)
    (ini : Ini) (h1 : fs [] = .notExists) (h2 : ini.config_file = []) :
    new fs [] = .ok ⟨[], []⟩ ∧ save os fs2 ini = (.error .noBoundPath, fs2) := by
  constructor
  · rw [new, h1]
  · rw [save, if_pos h2]

/-- C10 witness: the theorem applied to a concrete filesystem with no
entries and a concrete document parsed from a string (hence with the empty
bound path). -/
theorem C10_witness :
    new (fun _ => ReadResult.notExists) [] = .ok ⟨[], []⟩ ∧
    save OS.linux (fun _ => none) ⟨[(['a'], [])], []⟩ =
      (.error .noBoundPath, fun _ => none) :=
  C10_empty_path_binding (fun _ => ReadResult.notExists) OS.linux
    (fun _ => none) ⟨[(['a'], [])], []⟩ rfl rfl

end IniRs
